import Mathlib

/-!
Verification of the stockportfolio performance/risk metrics engine.

This file gives a shallow embedding, over exact rational arithmetic, of the
numeric core of the repository: the return-series builder, the portfolio
weight handling, the metrics engine (`utils.safe_calculate_metrics` and the
shared formulas of `app.calculate_performance_metrics`), the drawdown
segmentation of `advanced_charts.calculate_drawdown_periods`, the tail-risk
quantities of `advanced_charts.create_tail_risk_analysis`, and the strategy
scoring of `app.show_comparison_analysis` /
`portfolio_analysis.generate_analysis_report`.

Conventions of the embedding:
* pandas floating point values are modelled by `ℚ`; a value that pandas
  represents as `NaN` (missing data, or an undefined statistic such as the
  ddof=1 standard deviation of fewer than two observations) is modelled by
  `Option ℚ` with `none` for `NaN`, or by the `RVal.nan` constructor for the
  statistics that may also carry a square root;
* a statistic of the form `a * sqrt b` or `a / sqrt b` cannot be written in
  `ℚ`; such values are embedded by the constructors `RVal.sqrtRat` and
  `RVal.ratDivSqrt`, which record the exact rational data under the root.
  The zero / NaN tests that the source performs on those statistics are
  decidable on this representation because `sqrt x = 0 ↔ x = 0` and the
  source only ever compares them with `0`;
* `x / 0 = 0` in `ℚ`; every division of the source that the theorems below
  depend on is guarded (by the source's own `!= 0` checks or by an explicit
  positivity hypothesis), and the places where Python itself would raise
  `ZeroDivisionError` are modelled explicitly.
-/

/-- Mean of a list of rationals: `Series.mean()` for a series without
missing values.  On the empty list this yields the junk value `0`; every
use below is guarded by a nonemptiness check, mirroring the source. -/
def listMean (l : List ℚ) : ℚ := l.sum / l.length

/-- Sample variance with `ddof = 1`, the square of pandas `Series.std()`.
pandas returns `NaN` for fewer than two observations, modelled by `none`. -/
def sampleVar (l : List ℚ) : Option ℚ :=
  if l.length < 2 then none
  else some (((l.map (fun x => (x - listMean l) * (x - listMean l))).sum) / (l.length - 1))

/-- Minimum of a list of rationals: `Series.min()`.  The empty list yields
the junk value `0`; every use below is on a nonempty list. -/
def listMin : List ℚ → ℚ
  | [] => 0
  | x :: xs => xs.foldl min x

/-- Value of a statistic of the source that floats cannot represent exactly:
either `NaN`, an exact rational, `sqrt q`, or `a / sqrt b`. -/
inductive RVal where
  | nan : RVal
  | rat (q : ℚ) : RVal
  | sqrtRat (q : ℚ) : RVal
  | ratDivSqrt (a b : ℚ) : RVal
  deriving DecidableEq, Repr

/-- Annualized volatility `returns.std() * np.sqrt(252)` (utils.py:84,
app.py:308), expressed through the sample variance: `NaN` when the variance
is `NaN`, `0` when it is `0`, and `sqrt (252 * var)` otherwise. -/
def annVolVal (var : Option ℚ) : RVal :=
  match var with
  | none => RVal.nan
  | some v => if v = 0 then RVal.rat 0 else RVal.sqrtRat (252 * v)

/-- Sharpe ratio `annR / vol if vol != 0 else 0` (utils.py:89, app.py:309).
A `NaN` volatility passes the Python `!= 0` test, so the quotient is `NaN`;
a zero volatility takes the `else 0` branch. -/
def sharpeVal (annR : ℚ) (var : Option ℚ) : RVal :=
  match var with
  | none => RVal.nan
  | some v => if v = 0 then RVal.rat 0 else RVal.ratDivSqrt annR (252 * v)

/-- Sortino ratio (utils.py:114-123, app.py:323-326): when the downside set
is empty the source assigns `annR * 10`; otherwise it divides by the
downside annualized deviation, with the same `!= 0` guard as the Sharpe
ratio. -/
def sortinoVal (annR : ℚ) (downside : List ℚ) : RVal :=
  if downside.isEmpty then RVal.rat (annR * 10)
  else
    match sampleVar downside with
    | none => RVal.nan
    | some v => if v = 0 then RVal.rat 0 else RVal.ratDivSqrt annR (252 * v)

/-- Total return `(1 + returns).prod() - 1` (utils.py:74, app.py:306). -/
def totalReturnOf (l : List ℚ) : ℚ := (l.map (fun r => 1 + r)).prod - 1

/-- Annualized return `(1 + returns.mean()) ** 252 - 1` (utils.py:79,
app.py:307). -/
def annualizedReturn (l : List ℚ) : ℚ := (1 + listMean l) ^ (252 : ℕ) - 1

/-- Cumulative product scan: `(1 + returns).cumprod()` applied to an
already incremented list. -/
def scanMul (a : ℚ) : List ℚ → List ℚ
  | [] => []
  | x :: xs => (a * x) :: scanMul (a * x) xs

/-- Expanding maximum, tail worker. -/
def runMaxGo (a : ℚ) : List ℚ → List ℚ
  | [] => []
  | x :: xs => max a x :: runMaxGo (max a x) xs

/-- Expanding maximum: `cumulative.expanding().max()` (utils.py:96,
app.py:313, advanced_charts.py:157). -/
def runningMax : List ℚ → List ℚ
  | [] => []
  | x :: xs => x :: runMaxGo x xs

/-- Drawdown curve `(cumulative - rolling_max) / rolling_max` where
`cumulative = (1 + returns).cumprod()` (utils.py:95-97, app.py:312-314,
advanced_charts.py:156-158). -/
def drawdownCurve (returns : List ℚ) : List ℚ :=
  let c := scanMul 1 (returns.map (fun r => 1 + r))
  List.zipWith (fun ci mi => (ci - mi) / mi) c (runningMax c)

/-- Maximum drawdown `drawdown.min()` (utils.py:98, app.py:315). -/
def maxDrawdownOf (l : List ℚ) : ℚ := listMin (drawdownCurve l)

/-- Win rate `(returns > 0).mean()` (utils.py:104, app.py:318). -/
def winRateOf (l : List ℚ) : ℚ := ((l.filter (fun r => 0 < r)).length : ℚ) / l.length

/-- Linear-interpolation quantile of an already sorted list, the scheme
pandas `Series.quantile` uses by default: with `n` observations the rank is
`h = q * (n - 1)`, `i = floor h`, and the result interpolates between the
`i`-th and `(i+1)`-th order statistics.  The `(i+1)`-th entry defaults to
the `i`-th when `i + 1 = n`; in that case the interpolation weight is `0`,
so the default never influences the value. -/
def interpSorted (s : List ℚ) (q : ℚ) : ℚ :=
  let h : ℚ := q * ((s.length : ℚ) - 1)
  let i : ℕ := (⌊h⌋).toNat
  let a := s.getD i 0
  a + (h - (i : ℚ)) * (s.getD (i + 1) a - a)

/-- pandas `Series.quantile(q)` (utils.py:110, app.py:321,
advanced_charts.py:296-297): sort, then linearly interpolate. -/
def quantile (xs : List ℚ) (q : ℚ) : ℚ :=
  interpSorted (xs.insertionSort (fun a b => a ≤ b)) q

/-- MetricsBundle: the eight statistics of the metrics dictionary built by
`utils.safe_calculate_metrics` (and `app.calculate_performance_metrics`).
The record always carries every field, matching the dictionary that the
source returns with all eight keys. -/
structure MetricsBundle where
  totalReturn : ℚ
  annReturn : ℚ
  annVol : RVal
  sharpe : RVal
  maxDrawdown : ℚ
  winRate : ℚ
  var95 : ℚ
  sortino : RVal
  deriving DecidableEq, Repr

/-- Metrics engine `utils.safe_calculate_metrics` (utils.py:53-130).  The
input series may contain missing values (`none`).  The source returns the
empty dictionary when the series is empty (line 56), when every value is
`NaN` (line 60), or when the series is empty after `dropna` (line 66, which
is subsumed by the previous check); otherwise it fills all eight keys from
the cleaned series.  With exact arithmetic none of the guarded statements
inside the per-statistic `try` blocks can raise on a nonempty cleaned
series, so the `except` defaults are not reachable and each field holds the
computed statistic. -/
def safe_calculate_metrics (returns : List (Option ℚ)) : Option MetricsBundle :=
  if returns.isEmpty then none
  else if returns.all (fun x => x.isNone) then none
  else
    let clean := returns.filterMap id
    if clean.isEmpty then none
    else
      let var := sampleVar clean
      let annR := annualizedReturn clean
      some
        { totalReturn := totalReturnOf clean
          annReturn := annR
          annVol := annVolVal var
          sharpe := sharpeVal annR var
          maxDrawdown := maxDrawdownOf clean
          winRate := winRateOf clean
          var95 := quantile clean (5 / 100)
          sortino := sortinoVal annR (clean.filter (fun r => r < 0)) }

/-- Simple-return builder `price_data.pct_change().dropna()` for a single
gap-free column (app.py:296, utils.py:201, portfolio_analysis.py:65):
`return[t] = price[t+1] / price[t] - 1`, one element shorter than the price
list because `dropna` removes the leading `NaN` row. -/
def pctChange (prices : List ℚ) : List ℚ :=
  List.zipWith (fun a b => b / a - 1) prices prices.tail

/-- Weight handling of `app.show_performance_analysis` (app.py:581-588) and
`portfolio_analysis.backtest_portfolios` (portfolio_analysis.py:118-125):
keep the weights whose symbol occurs among the available data columns, then
divide each kept weight by the total of the kept weights.  A weight map is
an association list, a data column set a list of symbol names. -/
def dropRenormalize (weights : List (String × ℚ)) (avail : List String) : List (String × ℚ) :=
  let aw := weights.filter (fun kv => avail.contains kv.1)
  let total := (aw.map (fun kv => kv.2)).sum
  aw.map (fun kv => (kv.1, kv.2 / total))

/-- Weights that actually multiply the return columns inside
`utils.safe_portfolio_calculation` (utils.py:194-218): the source first
renormalizes the whole map when its total differs from `1` by more than
`0.01` (lines 195-198), and only afterwards discards the symbols that have
no price data (lines 208-211); no further renormalization happens before
the weighted sum of line 218. -/
def safeUsedWeights (weights : List (String × ℚ)) (availCols : List String) :
    List (String × ℚ) :=
  let total := (weights.map (fun kv => kv.2)).sum
  let w1 := if 1 / 100 < |total - 1| then weights.map (fun kv => (kv.1, kv.2 / total))
            else weights
  w1.filter (fun kv => availCols.contains kv.1)

/-- Outcome of `utils.safe_portfolio_calculation`: each tagged constructor
corresponds to one of the `st.error` / `st.warning` + empty-`Series` exits
of the source, `handledError` to an exception swallowed by the
`error_handler` decorator (utils.py:19-34, which returns `None`), and `ok`
to a successfully computed portfolio return series. -/
inductive PortfolioResult where
  | emptyData : PortfolioResult
  | emptyWeightMap : PortfolioResult
  | emptyReturns : PortfolioResult
  | noUsableWeights : PortfolioResult
  | handledError : PortfolioResult
  | ok (series : List ℚ) : PortfolioResult
  deriving DecidableEq, Repr

/-- Number of rows of a rectangular price frame given as a list of named
columns. -/
def nrowsOf (stockData : List (String × List ℚ)) : ℕ :=
  ((stockData.head?).map (fun c => c.2.length)).getD 0

/-- Column lookup in a named-column frame; an absent column yields the
empty column. -/
def lookupCol (frame : List (String × List ℚ)) (k : String) : List ℚ :=
  ((frame.find? (fun c => c.1 = k)).map (fun c => c.2)).getD []

/-- Row `t` of the weighted sum `(returns[list(weights.keys())] *
pd.Series(weights)).sum(axis=1)` over a return frame. -/
def weightedRow (rets : List (String × List ℚ)) (w : List (String × ℚ)) (t : ℕ) : ℚ :=
  (w.map (fun kv => kv.2 * (lookupCol rets kv.1).getD t 0)).sum

/-- Portfolio aggregator `utils.safe_portfolio_calculation` (utils.py:183-
219) on a rectangular, gap-free price frame.  The exits, in source order:
empty stock data (186-189), empty weight map (190-192), the weight-total
renormalization of lines 195-198 - where Python raises `ZeroDivisionError`
on a zero total, caught by the `error_handler` decorator -, empty return
frame (203-205), and the tagged no-usable-weights empty result of lines
213-215 after dropping symbols without data (208-211).  The success value
is the weighted sum of line 218 with the weights of `safeUsedWeights`. -/
def safe_portfolio_calculation (stockData : List (String × List ℚ))
    (weights : List (String × ℚ)) : PortfolioResult :=
  if stockData.isEmpty ∨ nrowsOf stockData = 0 then PortfolioResult.emptyData
  else if weights.isEmpty then PortfolioResult.emptyWeightMap
  else
    let total := (weights.map (fun kv => kv.2)).sum
    if 1 / 100 < |total - 1| ∧ total = 0 then PortfolioResult.handledError
    else
      let rets := stockData.map (fun c => (c.1, pctChange c.2))
      if nrowsOf stockData - 1 = 0 then PortfolioResult.emptyReturns
      else
        let w2 := safeUsedWeights weights (stockData.map (fun c => c.1))
        if w2.isEmpty then PortfolioResult.noUsableWeights
        else PortfolioResult.ok
          ((List.range (nrowsOf stockData - 1)).map (weightedRow rets w2))

/-- Inline aggregation of `app.show_performance_analysis` (app.py:581-593):
drop-then-renormalize the weights, then `calculate_portfolio_returns` on
the frame restricted to the kept symbols.  There is no failure channel:
the result is always a plain series.  When no symbol survives the
intersection, the restricted frame has no columns, pandas `dropna` then
keeps every row (no row contains a `NaN`), and the row sums over zero
columns give `0.0`, so the result is an all-zero series of full length. -/
def appAggregate (stockData : List (String × List ℚ))
    (weights : List (String × ℚ)) : List ℚ :=
  let aw := dropRenormalize weights (stockData.map (fun c => c.1))
  let rets := stockData.map (fun c => (c.1, pctChange c.2))
  let rows := if aw.isEmpty then nrowsOf stockData else nrowsOf stockData - 1
  (List.range rows).map (weightedRow rets aw)

/-- Composite strategy score of app.py:1064-1070 and
portfolio_analysis.py:240-246:
`sharpe * 0.4 + (1 - abs(max_drawdown)) * 0.3 + win_rate * 0.3`. -/
def strategyScore (sharpe maxDrawdown winRate : ℚ) : ℚ :=
  sharpe * (4 / 10) + (1 - |maxDrawdown|) * (3 / 10) + winRate * (3 / 10)

/-- DrawdownEpisode (advanced_charts.py:169-174): the dictionary appended
on a close transition; `stop` stands for the key `end`, which is reserved
in Lean. -/
structure Episode where
  start : ℕ
  stop : ℕ
  duration : ℕ
  depth : ℚ
  deriving DecidableEq, Repr

/-- Minimum over the index slice `[s, e)` of a drawdown list:
`drawdown.iloc[start:i].min()` (advanced_charts.py:173). -/
def minSlice (dd : List ℚ) (s e : ℕ) : ℚ := listMin ((dd.drop s).take (e - s))

/-- Scan loop of `calculate_drawdown_periods` (advanced_charts.py:165-175):
walks the remaining drawdown values carrying the current index and the
`start` of the currently open episode; a value `≥ 0` while an episode is
open emits the episode; an episode still open when the list ends is
dropped, exactly as the Python loop leaves `start` unconsumed. -/
def segGo (dd : List ℚ) : List ℚ → ℕ → Option ℕ → List Episode
  | [], _, _ => []
  | x :: rest, i, none =>
      if x < 0 then segGo dd rest (i + 1) (some i) else segGo dd rest (i + 1) none
  | x :: rest, i, some s =>
      if x < 0 then segGo dd rest (i + 1) (some s)
      else ⟨s, i, i - s, minSlice dd s i⟩ :: segGo dd rest (i + 1) none

/-- Episode segmentation of a drawdown curve. -/
def segmentDrawdowns (dd : List ℚ) : List Episode := segGo dd dd 0 none

/-- `calculate_drawdown_periods` (advanced_charts.py:155-177): drawdown
curve of the return series, then the scan loop. -/
def calculate_drawdown_periods (returns : List ℚ) : List Episode :=
  segmentDrawdowns (drawdownCurve returns)

/-- VaR ladder of `create_tail_risk_analysis` (advanced_charts.py:294-297):
`returns.quantile(1 - cl)` for each confidence level in
`[0.90, 0.95, 0.99, 0.995]`. -/
def tailVaRs (rs : List ℚ) : List ℚ :=
  ([90 / 100, 95 / 100, 99 / 100, 995 / 1000] : List ℚ).map (fun cl => quantile rs (1 - cl))

/-- Tail set `returns[returns <= returns.quantile(1 - cl)]`
(advanced_charts.py:300-301). -/
def tailSet (rs : List ℚ) (cl : ℚ) : List ℚ :=
  rs.filter (fun r => r ≤ quantile rs (1 - cl))

/-- Expected Shortfall (advanced_charts.py:300-301): mean of the tail set;
pandas yields `NaN` on an empty selection, modelled by `none`. -/
def expectedShortfall (rs : List ℚ) (cl : ℚ) : Option ℚ :=
  if (tailSet rs cl).isEmpty then none else some (listMean (tailSet rs cl))

/-- Specification-side predicate for C5: `s` and `e` delimit a maximal
interval of the drawdown list on which the curve is strictly negative and
which closes before the series ends - the curve is negative on `[s, e)`,
nonnegative at `e` (so in particular index `e` exists, `e < length`), and
`s` opens the run (`s = 0` or the preceding value is nonnegative). -/
def ClosedInterval (dd : List ℚ) (s e : ℕ) : Prop :=
  s < e ∧ e < dd.length ∧ (∀ j, s ≤ j → j < e → dd.getD j 0 < 0) ∧
  ¬ dd.getD e 0 < 0 ∧ (s = 0 ∨ ¬ dd.getD (s - 1) 0 < 0)

/-- Episode record the source builds for the closed interval `[s, e)`:
start, end, duration `end - start`, and depth `min` over the interval
(advanced_charts.py:169-174). -/
def mkEpisode (dd : List ℚ) (s e : ℕ) : Episode :=
  ⟨s, e, e - s, minSlice dd s e⟩

/-- Invariant carried by the scan state of `segGo` at position `i`: with
no open episode the previous value (if any) was nonnegative; with an
episode open since `s`, the curve is negative on `[s, i)` and `s` opened
the run. -/
def StateInv (dd : List ℚ) (i : ℕ) : Option ℕ → Prop
  | none => i = 0 ∨ ¬ dd.getD (i - 1) 0 < 0
  | some s => s < i ∧ (∀ j, s ≤ j → j < i → dd.getD j 0 < 0) ∧
      (s = 0 ∨ ¬ dd.getD (s - 1) 0 < 0)

/-- Episodes the scan emits from position `i` onward in state `st`: every
closed maximal interval starting at or after `i`, plus, when an episode
is open at `s`, the episode closing at the first nonnegative index at or
after `i`. -/
def EmitsSpec (dd : List ℚ) (i : ℕ) (st : Option ℕ) (ep : Episode) : Prop :=
  (∃ s e, i ≤ s ∧ ClosedInterval dd s e ∧ ep = mkEpisode dd s e) ∨
  (∃ s, st = some s ∧ ∃ e, i ≤ e ∧ ClosedInterval dd s e ∧ ep = mkEpisode dd s e)

lemma sum_map_snd_div (l : List (String × ℚ)) (c : ℚ) :
    ((l.map (fun kv => (kv.1, kv.2 / c))).map (fun kv => kv.2)).sum =
      ((l.map (fun kv => kv.2)).sum) / c := by
  induction l with
  | nil => simp
  | cons x xs ih =>
    simp only [List.map_cons, List.map_map, List.sum_cons] at ih ⊢
    simp [ih, add_div]

lemma foldl_min_mem : ∀ (xs : List ℚ) (x : ℚ), xs.foldl min x ∈ x :: xs := by
  intro xs
  induction xs with
  | nil => intro x; simp
  | cons y ys ih =>
    intro x
    rw [List.foldl_cons]
    have h := ih (min x y)
    rcases List.mem_cons.mp h with h1 | h1
    · rcases min_choice x y with h2 | h2
      · rw [h1, h2]; exact List.mem_cons_self _ _
      · rw [h1, h2]; exact List.mem_cons_of_mem _ (List.mem_cons_self _ _)
    · exact List.mem_cons_of_mem _ (List.mem_cons_of_mem _ h1)

lemma foldl_min_le : ∀ (xs : List ℚ) (x : ℚ),
    xs.foldl min x ≤ x ∧ ∀ y ∈ xs, xs.foldl min x ≤ y := by
  intro xs
  induction xs with
  | nil => intro x; simp
  | cons y ys ih =>
    intro x
    rw [List.foldl_cons]
    obtain ⟨h1, h2⟩ := ih (min x y)
    refine ⟨le_trans h1 (min_le_left _ _), ?_⟩
    intro z hz
    rcases List.mem_cons.mp hz with rfl | hz
    · exact le_trans h1 (min_le_right _ _)
    · exact h2 z hz

lemma listMin_mem (l : List ℚ) (h : l ≠ []) : listMin l ∈ l := by
  cases l with
  | nil => exact absurd rfl h
  | cons x xs => exact foldl_min_mem xs x

lemma listMin_le (l : List ℚ) {y : ℚ} (hy : y ∈ l) : listMin l ≤ y := by
  cases l with
  | nil => simp at hy
  | cons x xs =>
    rcases List.mem_cons.mp hy with rfl | hy
    · exact (foldl_min_le xs y).1
    · exact (foldl_min_le xs x).2 y hy

/-- C1 (amended part). The drop-then-renormalize weight handling of
`show_performance_analysis` (app.py:581-588): whenever the symbols shared
by the weight map and the available price columns carry a strictly
positive total weight, the weights actually used in the weighted sum are
the renormalized ones, and they sum to exactly 1 - in particular to 1
within the 1e-9 tolerance the specification allows. -/
theorem dropRenormalize_sum_one (weights : List (String × ℚ)) (avail : List String)
    (h : 0 < ((weights.filter (fun kv => avail.contains kv.1)).map (fun kv => kv.2)).sum) :
    ((dropRenormalize weights avail).map (fun kv => kv.2)).sum = 1 ∧
    |((dropRenormalize weights avail).map (fun kv => kv.2)).sum - 1| ≤ 1 / 1000000000 := by
  have key : ((dropRenormalize weights avail).map (fun kv => kv.2)).sum = 1 := by
    simp only [dropRenormalize]
    rw [sum_map_snd_div, div_self (ne_of_gt h)]
  refine ⟨key, ?_⟩
  rw [key]
  norm_num

/-- Witness for C1 at the specification scenario weights `{A: 0.5, B: 0.6}`
with both symbols available. -/
theorem dropRenormalize_sum_one_witness :
    0 < ((([("A", (1 : ℚ) / 2), ("B", 6 / 10)]).filter
      (fun kv => (["A", "B"] : List String).contains kv.1)).map (fun kv => kv.2)).sum ∧
    ((dropRenormalize [("A", (1 : ℚ) / 2), ("B", 6 / 10)] ["A", "B"]).map
      (fun kv => kv.2)).sum = 1 := by
  have h : 0 < ((([("A", (1 : ℚ) / 2), ("B", 6 / 10)]).filter
      (fun kv => (["A", "B"] : List String).contains kv.1)).map (fun kv => kv.2)).sum := by
    simp [List.filter]
    norm_num
  exact ⟨h, (dropRenormalize_sum_one [("A", (1 : ℚ) / 2), ("B", 6 / 10)] ["A", "B"] h).1⟩

/-- C1 counterexample. In `utils.safe_portfolio_calculation` the weights
are renormalized before the symbols without price data are dropped, and
never afterwards: with the weight map `{A: 0.5, B: 0.5}` and only `A`
available, the shared symbols carry the strictly positive total weight
`0.5`, yet the weights used in the weighted sum of line 218 total `0.5`,
which is not within `1e-9` of `1`. -/
theorem safeUsedWeights_sum_counterexample :
    0 < ((([("A", (1 : ℚ) / 2), ("B", 1 / 2)]).filter
      (fun kv => (["A"] : List String).contains kv.1)).map (fun kv => kv.2)).sum ∧
    ((safeUsedWeights [("A", (1 : ℚ) / 2), ("B", 1 / 2)] ["A"]).map
      (fun kv => kv.2)).sum = 1 / 2 ∧
    ¬ |((safeUsedWeights [("A", (1 : ℚ) / 2), ("B", 1 / 2)] ["A"]).map
      (fun kv => kv.2)).sum - 1| ≤ 1 / 1000000000 := by
  have h : safeUsedWeights [("A", (1 : ℚ) / 2), ("B", 1 / 2)] ["A"] =
      [("A", (1 : ℚ) / 2)] := by
    norm_num [safeUsedWeights]
    simp [List.filter]
  refine ⟨by simp [List.filter], by rw [h]; norm_num, ?_⟩
  rw [h]
  intro hle
  rw [show |(([("A", (1 : ℚ) / 2)]).map (fun kv => kv.2)).sum - 1| = 1 / 2 by norm_num] at hle
  norm_num at hle

/-- C7 counterexample. The composite score of app.py:1064-1070 does not
always rank the bundle with the smaller drawdown magnitude higher when
only the Sharpe ratios agree: with equal Sharpe `1`, the bundle with
drawdown `-0.1` and win rate `0` scores strictly below the bundle with
drawdown `-0.2` and win rate `0.5`. -/
theorem strategyScore_counterexample :
    |(-1 : ℚ) / 10| < |(-2 : ℚ) / 10| ∧
    strategyScore 1 (-1 / 10) 0 < strategyScore 1 (-2 / 10) (1 / 2) := by
  have h1 : |(-1 : ℚ) / 10| = 1 / 10 := by rw [abs_of_nonpos (by norm_num)]; norm_num
  have h2 : |(-2 : ℚ) / 10| = 2 / 10 := by rw [abs_of_nonpos (by norm_num)]; norm_num
  constructor
  · rw [h1, h2]; norm_num
  · unfold strategyScore
    rw [h1, h2]
    norm_num

/-- C7 (amended). When two metric bundles agree on Sharpe ratio and win
rate, the composite score `0.4 * sharpe + 0.3 * (1 - abs dd) + 0.3 * win`
of app.py:1064-1070 / portfolio_analysis.py:240-246 ranks the bundle with
the strictly smaller drawdown magnitude strictly higher. -/
theorem strategyScore_lower_drawdown_wins (s w d1 d2 : ℚ) (h : |d1| < |d2|) :
    strategyScore s d2 w < strategyScore s d1 w := by
  unfold strategyScore
  nlinarith [h]

/-- Witness for C7 (amended) at Sharpe `1`, win rate `0.5`, drawdowns
`-0.1` and `-0.2`. -/
theorem strategyScore_lower_drawdown_wins_witness :
    |(-1 : ℚ) / 10| < |(-2 : ℚ) / 10| ∧
    strategyScore 1 (-2 / 10) (1 / 2) < strategyScore 1 (-1 / 10) (1 / 2) := by
  have h : |(-1 : ℚ) / 10| < |(-2 : ℚ) / 10| := by
    rw [abs_of_nonpos (by norm_num), abs_of_nonpos (by norm_num)]
    norm_num
  exact ⟨h, strategyScore_lower_drawdown_wins 1 (1 / 2) (-1 / 10) (-2 / 10) h⟩

lemma pctChange_prod : ∀ (rest : List ℚ) (p : ℚ), p ≠ 0 → (∀ x ∈ rest, x ≠ 0) →
    ((pctChange (p :: rest)).map (fun r => 1 + r)).prod = ((p :: rest).getLast?).getD 0 / p := by
  intro rest
  induction rest with
  | nil =>
    intro p hp _
    simp [pctChange, div_self hp]
  | cons q rest2 ih =>
    intro p hp hr
    have hq : q ≠ 0 := hr q (List.mem_cons_self _ _)
    have step : pctChange (p :: q :: rest2) = (q / p - 1) :: pctChange (q :: rest2) := by
      simp [pctChange]
    rw [step]
    simp only [List.map_cons, List.prod_cons]
    rw [ih q hq (fun x hx => hr x (List.mem_cons_of_mem _ hx))]
    rw [List.getLast?_cons_cons]
    have h1 : 1 + (q / p - 1) = q / p := by ring
    rw [h1, div_mul_div_comm, mul_comm p q, mul_div_mul_left _ _ hq]

/-- C9. For a gap-free price series of at least two strictly positive
prices, `pct_change().dropna()` (app.py:296) yields one return per
consecutive pair, `return[t] = price[t+1] / price[t] - 1`, and the total
return `(1 + returns).prod() - 1` (app.py:306) telescopes to
`last price / first price - 1`. -/
theorem pctChange_spec (prices : List ℚ)
    (hpos : ∀ p ∈ prices, 0 < p) (hlen : 2 ≤ prices.length) :
    (pctChange prices).length = prices.length - 1 ∧
    (∀ t, t + 1 < prices.length →
      (pctChange prices).getD t 0 = prices.getD (t + 1) 0 / prices.getD t 0 - 1) ∧
    totalReturnOf (pctChange prices) =
      (prices.getLast?).getD 0 / (prices.head?).getD 0 - 1 := by
  refine ⟨?_, ?_, ?_⟩
  · simp [pctChange]
  · intro t ht
    have hlt : t < (pctChange prices).length := by
      simp only [pctChange, List.length_zipWith, List.length_tail]
      omega
    have htail : t < prices.tail.length := by
      rw [List.length_tail]; omega
    have hcur : t < prices.length := by omega
    rw [List.getD_eq_getElem _ _ hlt, List.getD_eq_getElem _ _ ht, List.getD_eq_getElem _ _ hcur]
    simp only [pctChange]
    rw [List.getElem_zipWith]
    congr 1
    congr 1
    exact List.getElem_tail prices t htail
  · cases prices with
    | nil => simp at hlen
    | cons p rest =>
      have hp : p ≠ 0 := ne_of_gt (hpos p (List.mem_cons_self _ _))
      have hr : ∀ x ∈ rest, x ≠ 0 :=
        fun x hx => ne_of_gt (hpos x (List.mem_cons_of_mem _ hx))
      unfold totalReturnOf
      rw [pctChange_prod rest p hp hr]
      simp

/-- Witness for C9 at the specification scenario `[100, 102, 101, 105]`:
the returns are `[0.02, -1/102, 4/101]` and the total return is exactly
`0.05`. -/
theorem pctChange_spec_witness :
    pctChange ([100, 102, 101, 105] : List ℚ) = [1 / 50, -1 / 102, 4 / 101] ∧
    totalReturnOf (pctChange ([100, 102, 101, 105] : List ℚ)) = 1 / 20 := by
  have h := pctChange_spec [100, 102, 101, 105] (by norm_num) (by norm_num)
  refine ⟨?_, ?_⟩
  · simp [pctChange]
    norm_num
  · rw [h.2.2]
    simp [List.getLast?]
    norm_num

/-- C6 (amended part). When the stock data frame is usable (nonempty, at
least two rows), the weight map is nonempty with strictly positive total,
and no weighted symbol occurs among the data columns,
`utils.safe_portfolio_calculation` exits through the tagged
no-usable-weights empty result of utils.py:213-215; in this model every
other exceptional outcome is also a tagged value, so no exception crosses
the boundary (the `error_handler` decorator of utils.py:19-34 converts any
raised exception into the `handledError` value). -/
theorem safe_portfolio_no_usable_weights (stockData : List (String × List ℚ))
    (weights : List (String × ℚ))
    (hsd : ¬ stockData.isEmpty = true) (hr : 2 ≤ nrowsOf stockData)
    (hw : ¬ weights.isEmpty = true)
    (htot : 0 < (weights.map (fun kv => kv.2)).sum)
    (hmiss : ∀ kv ∈ weights, (stockData.map (fun c => c.1)).contains kv.1 = false) :
    safe_portfolio_calculation stockData weights = PortfolioResult.noUsableWeights := by
  have hused : safeUsedWeights weights (stockData.map (fun c => c.1)) = [] := by
    unfold safeUsedWeights
    rw [List.filter_eq_nil_iff]
    intro kv hkv
    by_cases hcond :
        (1 : ℚ) / 100 < |(weights.map (fun kv => kv.2)).sum - 1|
    · rw [if_pos hcond] at hkv
      obtain ⟨kv0, hkv0, rfl⟩ := List.mem_map.mp hkv
      show ¬ ((stockData.map (fun c => c.1)).contains kv0.1 = true)
      rw [hmiss kv0 hkv0]
      simp
    · rw [if_neg hcond] at hkv
      show ¬ ((stockData.map (fun c => c.1)).contains kv.1 = true)
      rw [hmiss kv hkv]
      simp
  unfold safe_portfolio_calculation
  rw [if_neg, if_neg hw, if_neg, if_neg, if_pos]
  · rw [hused]; rfl
  · omega
  · rintro ⟨_, h0⟩
    exact ne_of_gt htot h0
  · rintro (h | h)
    · exact hsd h
    · omega

/-- Witness for C6 (amended) with one available column `B` and the
weight map `{A: 1}`. -/
theorem safe_portfolio_no_usable_weights_witness :
    safe_portfolio_calculation [("B", ([100, 102] : List ℚ))] [("A", (1 : ℚ))] =
      PortfolioResult.noUsableWeights :=
  safe_portfolio_no_usable_weights [("B", ([100, 102] : List ℚ))] [("A", (1 : ℚ))]
    (by simp) (by norm_num [nrowsOf]) (by simp) (by norm_num) (by simp)

/-- C6 counterexample. The inline aggregation of
`show_performance_analysis` (app.py:581-593) has no failure channel at
all: with the single available column `B` (two price rows) and the weight
map `{A: 1}` - an empty intersection - it does not fail but produces the
untagged, nonempty all-zero series `[0, 0]` (pandas `dropna` keeps every
row of the zero-column frame, and each row sum over zero columns is
`0.0`). -/
theorem appAggregate_counterexample :
    appAggregate [("B", ([100, 102] : List ℚ))] [("A", (1 : ℚ))] = [0, 0] ∧
    appAggregate [("B", ([100, 102] : List ℚ))] [("A", (1 : ℚ))] ≠ [] := by
  have h : appAggregate [("B", ([100, 102] : List ℚ))] [("A", (1 : ℚ))] = [0, 0] := by
    have hdrop : dropRenormalize [("A", (1 : ℚ))] ["B"] = [] := by
      simp [dropRenormalize, List.filter]
    simp [appAggregate, hdrop, nrowsOf, weightedRow, List.range_succ]
  exact ⟨h, by rw [h]; simp⟩

lemma metrics_some_fields (rs : List (Option ℚ)) (b : MetricsBundle)
    (hb : safe_calculate_metrics rs = some b) :
    b.annVol = annVolVal (sampleVar (rs.filterMap id)) ∧
    b.sharpe = sharpeVal (annualizedReturn (rs.filterMap id)) (sampleVar (rs.filterMap id)) ∧
    b.annReturn = annualizedReturn (rs.filterMap id) ∧
    b.sortino = sortinoVal (annualizedReturn (rs.filterMap id))
      ((rs.filterMap id).filter (fun r => r < 0)) := by
  simp only [safe_calculate_metrics] at hb
  split_ifs at hb
  have h := Option.some.inj hb
  subst h
  exact ⟨rfl, rfl, rfl, rfl⟩

/-- C2. The metrics engine returns the empty bundle exactly for an empty
or all-missing input series: `utils.safe_calculate_metrics` yields `none`
if and only if the series is empty or every entry is missing; in every
other case it returns `some` bundle, a record that structurally carries
all eight statistics.  (With exact arithmetic the per-statistic `except`
defaults of the source are unreachable on a nonempty cleaned series, so
each field holds the computed statistic.) -/
theorem metrics_empty_iff (rs : List (Option ℚ)) :
    safe_calculate_metrics rs = none ↔ (rs = [] ∨ ∀ x ∈ rs, x = none) := by
  simp only [safe_calculate_metrics]
  split_ifs with h1 h2 h3
  · simp only [List.isEmpty_iff] at h1
    simp [h1]
  · simp only [List.all_eq_true] at h2
    simp only [eq_self_iff_true, true_iff]
    right
    intro x hx
    exact Option.isNone_iff_eq_none.mp (h2 x hx)
  · exfalso
    simp only [List.all_eq_true] at h2
    push_neg at h2
    obtain ⟨x, hx, hxn⟩ := h2
    cases x with
    | none => exact hxn (by simp)
    | some a =>
      have ha : a ∈ rs.filterMap id := List.mem_filterMap.mpr ⟨some a, hx, rfl⟩
      rw [List.isEmpty_iff] at h3
      rw [h3] at ha
      simp at ha
  · simp only [List.isEmpty_iff] at h1
    constructor
    · intro h
      exact absurd h (by simp)
    · rintro (rfl | hall)
      · exact absurd rfl h1
      · exfalso
        apply h2
        rw [List.all_eq_true]
        intro x hx
        rw [hall x hx]
        rfl

/-- C3. When a computed bundle reports zero annualized volatility, its
Sharpe ratio is exactly `0`: the `!= 0` guard of utils.py:89 / app.py:309
takes the `else 0` branch, so no division happens and no `NaN` appears. -/
theorem metrics_sharpe_zero_of_vol_zero (rs : List (Option ℚ)) (b : MetricsBundle)
    (hb : safe_calculate_metrics rs = some b) (hv : b.annVol = RVal.rat 0) :
    b.sharpe = RVal.rat 0 := by
  obtain ⟨hvol, hsh, _, _⟩ := metrics_some_fields rs b hb
  rw [hvol] at hv
  rw [hsh]
  cases hvar : sampleVar (rs.filterMap id) with
  | none =>
    rw [hvar] at hv
    simp [annVolVal] at hv
  | some v =>
    rw [hvar] at hv
    by_cases hz : v = 0
    · simp [sharpeVal, hz]
    · simp [annVolVal, hz] at hv

/-- Witness for C3 on the constant series `[0, 0]`: the variance is `0`,
the reported volatility is exactly `0`, and Sharpe is exactly `0`. -/
theorem metrics_sharpe_zero_witness :
    ∃ b, safe_calculate_metrics [some 0, some 0] = some b ∧
      b.annVol = RVal.rat 0 ∧ b.sharpe = RVal.rat 0 := by
  have hfl : ⌊(1 / 20 : ℚ)⌋ = 0 := by
    rw [Int.floor_eq_zero_iff]
    constructor <;> norm_num
  have hfm : List.filterMap id [some (0 : ℚ), some 0] = [0, 0] := rfl
  have hb : safe_calculate_metrics [some 0, some 0] =
      some ⟨0, 0, RVal.rat 0, RVal.rat 0, 0, 0, 0, RVal.rat 0⟩ := by
    norm_num [safe_calculate_metrics, hfm, sampleVar, listMean, annualizedReturn,
      totalReturnOf, maxDrawdownOf, drawdownCurve, scanMul, runningMax, runMaxGo, listMin,
      winRateOf, quantile, interpSorted, List.insertionSort, List.orderedInsert, annVolVal,
      sharpeVal, sortinoVal, List.filter, hfl]
  refine ⟨_, hb, rfl, ?_⟩
  exact metrics_sharpe_zero_of_vol_zero [some 0, some 0] _ hb rfl

/-- C4. When the cleaned series contains no negative return, the Sortino
ratio of the computed bundle is exactly `annualized return * 10`, the
explicit sentinel of utils.py:121 - not `NaN` and not an error value. -/
theorem metrics_sortino_no_downside (rs : List (Option ℚ)) (b : MetricsBundle)
    (hb : safe_calculate_metrics rs = some b)
    (hd : ∀ x ∈ rs.filterMap id, 0 ≤ x) :
    b.sortino = RVal.rat (b.annReturn * 10) := by
  obtain ⟨_, _, hann, hsor⟩ := metrics_some_fields rs b hb
  rw [hsor, hann]
  have hempty : (rs.filterMap id).filter (fun r => r < 0) = [] := by
    rw [List.filter_eq_nil_iff]
    intro a ha
    simp only [decide_eq_true_eq, not_lt]
    exact hd a ha
  rw [hempty]
  simp [sortinoVal]

/-- Witness for C4 on the one-point series `[0]`, which has no negative
return: the bundle is computed (with `NaN` volatility and Sharpe, since a
single observation has no sample deviation) and Sortino equals
`annualized return * 10 = 0`. -/
theorem metrics_sortino_no_downside_witness :
    ∃ b, safe_calculate_metrics [some 0] = some b ∧
      b.sortino = RVal.rat (b.annReturn * 10) := by
  have hfl : ⌊(0 : ℚ)⌋ = 0 := by simp
  have hfm : List.filterMap id [some (0 : ℚ)] = [0] := rfl
  have hb : safe_calculate_metrics [some 0] =
      some ⟨0, 0, RVal.nan, RVal.nan, 0, 0, 0, RVal.rat 0⟩ := by
    norm_num [safe_calculate_metrics, hfm, sampleVar, listMean, annualizedReturn,
      totalReturnOf, maxDrawdownOf, drawdownCurve, scanMul, runningMax, runMaxGo, listMin,
      winRateOf, quantile, interpSorted, List.insertionSort, List.orderedInsert, annVolVal,
      sharpeVal, sortinoVal, List.filter, hfl]
  refine ⟨_, hb, ?_⟩
  have h := metrics_sortino_no_downside [some 0] _ hb
    (by intro x hx; rw [hfm] at hx; simp at hx; rw [hx])
  exact h

lemma sorted_getD_le (s : List ℚ) (hs : List.Sorted (· ≤ ·) s) {i j : ℕ}
    (hij : i ≤ j) (hj : j < s.length) : s.getD i 0 ≤ s.getD j 0 := by
  have hi : i < s.length := Nat.lt_of_le_of_lt hij hj
  rw [List.getD_eq_getElem _ _ hi, List.getD_eq_getElem _ _ hj]
  have h := hs.rel_get_of_le (show (⟨i, hi⟩ : Fin s.length) ≤ ⟨j, hj⟩ from Fin.mk_le_mk.mpr hij)
  simpa [List.get_eq_getElem] using h

lemma getD_succ_ge (s : List ℚ) (hs : List.Sorted (· ≤ ·) s) {i : ℕ} (hi : i < s.length) :
    s.getD i 0 ≤ s.getD (i + 1) (s.getD i 0) := by
  by_cases h : i + 1 < s.length
  · rw [List.getD_eq_getElem _ _ h, List.getD_eq_getElem _ _ hi]
    have hle := hs.rel_get_of_le
      (show (⟨i, hi⟩ : Fin s.length) ≤ ⟨i + 1, h⟩ from Fin.mk_le_mk.mpr (Nat.le_succ i))
    simpa [List.get_eq_getElem] using hle
  · rw [List.getD_eq_default s (s.getD i 0) (by omega : s.length ≤ i + 1)]

lemma getD_succ_le (s : List ℚ) (hs : List.Sorted (· ≤ ·) s) {i j : ℕ}
    (hij : i < j) (hj : j < s.length) :
    s.getD (i + 1) (s.getD i 0) ≤ s.getD j 0 := by
  have h : i + 1 < s.length := by omega
  rw [List.getD_eq_getElem _ _ h]
  rw [← List.getD_eq_getElem s 0 h]
  exact sorted_getD_le s hs (by omega) hj

lemma rank_floor_bounds {s : List ℚ} {h : ℚ} (h0 : 0 ≤ h)
    (hle : h ≤ (s.length : ℚ) - 1) :
    (((⌊h⌋).toNat : ℚ)) ≤ h ∧ h < (((⌊h⌋).toNat : ℚ)) + 1 ∧ (⌊h⌋).toNat < s.length := by
  have hf0 : (0 : ℤ) ≤ ⌊h⌋ := Int.floor_nonneg.mpr h0
  have hcast : (((⌊h⌋).toNat : ℚ)) = ((⌊h⌋ : ℤ) : ℚ) := by
    exact_mod_cast congrArg (fun z : ℤ => (z : ℚ)) (Int.toNat_of_nonneg hf0)
  have hlen1 : 1 ≤ s.length := by
    by_contra hcon
    have h0' : s.length = 0 := by omega
    rw [h0'] at hle
    norm_num at hle
    linarith
  have hNcast : ((s.length : ℚ) - 1) = ((s.length - 1 : ℕ) : ℚ) := by
    push_cast [Nat.cast_sub hlen1]
    ring
  refine ⟨?_, ?_, ?_⟩
  · rw [hcast]; exact Int.floor_le h
  · rw [hcast]
    exact_mod_cast Int.lt_floor_add_one h
  · have hfl : ⌊h⌋ ≤ ((s.length - 1 : ℕ) : ℤ) := by
      have := Int.floor_le_floor (le_of_le_of_eq hle hNcast)
      rwa [Int.floor_natCast] at this
    have := Int.toNat_le_toNat hfl
    rw [Int.toNat_natCast] at this
    omega

lemma interp_formula_mono (s : List ℚ) (hs : List.Sorted (· ≤ ·) s)
    {hA hB : ℚ} (hA0 : 0 ≤ hA) (hAB : hA ≤ hB) (hBle : hB ≤ (s.length : ℚ) - 1) :
    s.getD (⌊hA⌋).toNat 0 + (hA - ((⌊hA⌋).toNat : ℚ)) *
        (s.getD ((⌊hA⌋).toNat + 1) (s.getD (⌊hA⌋).toNat 0) - s.getD (⌊hA⌋).toNat 0) ≤
    s.getD (⌊hB⌋).toNat 0 + (hB - ((⌊hB⌋).toNat : ℚ)) *
        (s.getD ((⌊hB⌋).toNat + 1) (s.getD (⌊hB⌋).toNat 0) - s.getD (⌊hB⌋).toNat 0) := by
  obtain ⟨hA_le, hA_lt, hA_len⟩ := rank_floor_bounds hA0 (le_trans hAB hBle)
  obtain ⟨hB_le, hB_lt, hB_len⟩ := rank_floor_bounds (le_trans hA0 hAB) hBle
  have hiAB : (⌊hA⌋).toNat ≤ (⌊hB⌋).toNat :=
    Int.toNat_le_toNat (Int.floor_le_floor hAB)
  set iA := (⌊hA⌋).toNat with hiA
  set iB := (⌊hB⌋).toNat with hiB
  set a1 := s.getD iA 0 with ha1
  set b1 := s.getD (iA + 1) a1 with hb1
  set a2 := s.getD iB 0 with ha2
  set b2 := s.getD (iB + 1) a2 with hb2
  have hab1 : a1 ≤ b1 := getD_succ_ge s hs hA_len
  have hab2 : a2 ≤ b2 := getD_succ_ge s hs hB_len
  rcases eq_or_lt_of_le hiAB with heq | hlt
  · rw [← heq] at ha2 hb2 ⊢
    have hsame_a : a2 = a1 := by rw [ha2, ha1]
    have hsame_b : b2 = b1 := by rw [hb2, hb1, hsame_a]
    rw [hsame_a, hsame_b]
    have hkey : 0 ≤ (hB - hA) * (b1 - a1) :=
      mul_nonneg (by linarith) (by linarith)
    nlinarith [hkey]
  · have h1 : a1 + (hA - (iA : ℚ)) * (b1 - a1) ≤ b1 := by
      have hkey : 0 ≤ (1 - (hA - (iA : ℚ))) * (b1 - a1) :=
        mul_nonneg (by linarith) (by linarith)
      nlinarith [hkey]
    have h2 : b1 ≤ a2 := getD_succ_le s hs hlt hB_len
    have h3 : a2 ≤ a2 + (hB - (iB : ℚ)) * (b2 - a2) := by
      have hkey : 0 ≤ (hB - (iB : ℚ)) * (b2 - a2) :=
        mul_nonneg (by linarith) (by linarith)
      linarith
    linarith

lemma interp_formula_ge_head (s : List ℚ) (hs : List.Sorted (· ≤ ·) s)
    {h : ℚ} (h0 : 0 ≤ h) (hle : h ≤ (s.length : ℚ) - 1) :
    s.getD 0 0 ≤
      s.getD (⌊h⌋).toNat 0 + (h - ((⌊h⌋).toNat : ℚ)) *
        (s.getD ((⌊h⌋).toNat + 1) (s.getD (⌊h⌋).toNat 0) - s.getD (⌊h⌋).toNat 0) := by
  obtain ⟨h_le, h_lt, h_len⟩ := rank_floor_bounds h0 hle
  set i := (⌊h⌋).toNat with hidef
  set a := s.getD i 0 with ha
  set b := s.getD (i + 1) a with hb
  have hab : a ≤ b := getD_succ_ge s hs h_len
  have h0a : s.getD 0 0 ≤ a := sorted_getD_le s hs (Nat.zero_le i) h_len
  have hkey : 0 ≤ (h - (i : ℚ)) * (b - a) := mul_nonneg (by linarith) (by linarith)
  nlinarith [hkey]

lemma quantile_mono (xs : List ℚ) (hx : xs ≠ []) {q1 q2 : ℚ}
    (h0 : 0 ≤ q1) (h12 : q1 ≤ q2) (h1 : q2 ≤ 1) :
    quantile xs q1 ≤ quantile xs q2 := by
  have hlen : 1 ≤ (xs.insertionSort (fun a b => a ≤ b)).length := by
    rw [List.length_insertionSort]
    exact List.length_pos.mpr hx
  have hN0 : (0 : ℚ) ≤ ((xs.insertionSort (fun a b => a ≤ b)).length : ℚ) - 1 := by
    have : (1 : ℚ) ≤ ((xs.insertionSort (fun a b => a ≤ b)).length : ℚ) := by
      exact_mod_cast hlen
    linarith
  exact interp_formula_mono (xs.insertionSort (fun a b => a ≤ b))
    (List.sorted_insertionSort _ xs)
    (mul_nonneg h0 hN0)
    (mul_le_mul_of_nonneg_right h12 hN0)
    (mul_le_of_le_one_left hN0 h1)

lemma quantile_ge_min (xs : List ℚ) (hx : xs ≠ []) {q : ℚ}
    (h0 : 0 ≤ q) (h1 : q ≤ 1) :
    ∃ x ∈ xs, x ≤ quantile xs q := by
  have hlen : 1 ≤ (xs.insertionSort (fun a b => a ≤ b)).length := by
    rw [List.length_insertionSort]
    exact List.length_pos.mpr hx
  have hN0 : (0 : ℚ) ≤ ((xs.insertionSort (fun a b => a ≤ b)).length : ℚ) - 1 := by
    have : (1 : ℚ) ≤ ((xs.insertionSort (fun a b => a ≤ b)).length : ℚ) := by
      exact_mod_cast hlen
    linarith
  have hhead : (xs.insertionSort (fun a b => a ≤ b)).getD 0 0 ≤ quantile xs q :=
    interp_formula_ge_head (xs.insertionSort (fun a b => a ≤ b))
      (List.sorted_insertionSort _ xs)
      (mul_nonneg h0 hN0)
      (mul_le_of_le_one_left hN0 h1)
  refine ⟨(xs.insertionSort (fun a b => a ≤ b)).getD 0 0, ?_, hhead⟩
  have hmem : (xs.insertionSort (fun a b => a ≤ b)).getD 0 0 ∈
      xs.insertionSort (fun a b => a ≤ b) := by
    rw [List.getD_eq_getElem _ _ (by omega : 0 < (xs.insertionSort (fun a b => a ≤ b)).length)]
    exact List.getElem_mem _
  exact (List.mem_insertionSort _).mp hmem

/-- C8. The VaR ladder of `create_tail_risk_analysis`
(advanced_charts.py:294-297) is monotone: for any nonempty return series
the quantile-based VaR values at confidence levels 0.90, 0.95, 0.99,
0.995 satisfy VaR(99.5) ≤ VaR(99) ≤ VaR(95) ≤ VaR(90), i.e. the list
`tailVaRs`, ordered by increasing confidence, is non-increasing. -/
theorem tail_vars_monotone (rs : List ℚ) (h : rs ≠ []) :
    List.Chain' (fun a b => b ≤ a) (tailVaRs rs) := by
  unfold tailVaRs
  simp only [List.map_cons, List.map_nil, List.chain'_cons, List.chain'_singleton, and_true]
  refine ⟨?_, ?_, ?_⟩
  · exact quantile_mono rs h (by norm_num) (by norm_num) (by norm_num)
  · exact quantile_mono rs h (by norm_num) (by norm_num) (by norm_num)
  · exact quantile_mono rs h (by norm_num) (by norm_num) (by norm_num)

/-- Witness for C8 on the series `[-0.1, 0, 0.2]`. -/
theorem tail_vars_monotone_witness :
    ([(-1 : ℚ) / 10, 0, 2 / 10] : List ℚ) ≠ [] ∧
    List.Chain' (fun a b => b ≤ a) (tailVaRs [(-1 : ℚ) / 10, 0, 2 / 10]) :=
  ⟨by simp, tail_vars_monotone [(-1 : ℚ) / 10, 0, 2 / 10] (by simp)⟩

/-- C10. For every nonempty return series and each confidence level used
by `create_tail_risk_analysis`, the tail selection
`returns[returns <= returns.quantile(1 - cl)]` is nonempty - the series
minimum always satisfies the predicate because the interpolated quantile
never lies below the smallest order statistic - so the Expected Shortfall
of advanced_charts.py:300-301 is the mean of a nonempty set: the pandas
`NaN`-on-empty-selection case is unreachable. -/
theorem tail_set_nonempty (rs : List ℚ) (h : rs ≠ []) (cl : ℚ)
    (hcl : cl ∈ ([90 / 100, 95 / 100, 99 / 100, 995 / 1000] : List ℚ)) :
    tailSet rs cl ≠ [] ∧ (expectedShortfall rs cl).isSome = true := by
  have hq : 0 ≤ 1 - cl ∧ 1 - cl ≤ 1 := by
    simp only [List.mem_cons, List.not_mem_nil, or_false] at hcl
    rcases hcl with rfl | rfl | rfl | rfl <;> norm_num
  obtain ⟨x, hx, hxle⟩ := quantile_ge_min rs h hq.1 hq.2
  have hmem : x ∈ tailSet rs cl := by
    unfold tailSet
    rw [List.mem_filter]
    exact ⟨hx, by simpa using hxle⟩
  refine ⟨List.ne_nil_of_mem hmem, ?_⟩
  unfold expectedShortfall
  rw [if_neg]
  · rfl
  · rw [List.isEmpty_iff]
    exact List.ne_nil_of_mem hmem

/-- Witness for C10 on the series `[0.1, -0.3]` at confidence level 95%. -/
theorem tail_set_nonempty_witness :
    tailSet [(1 : ℚ) / 10, -3 / 10] (95 / 100) ≠ [] ∧
    (expectedShortfall [(1 : ℚ) / 10, -3 / 10] (95 / 100)).isSome = true :=
  tail_set_nonempty [(1 : ℚ) / 10, -3 / 10] (by simp) (95 / 100)
    (by simp)

lemma drop_cons_facts {dd : List ℚ} {i : ℕ} {x : ℚ} {rest : List ℚ}
    (h : dd.drop i = x :: rest) :
    i < dd.length ∧ dd.getD i 0 = x ∧ dd.drop (i + 1) = rest := by
  have hlen : i < dd.length := by
    by_contra hcon
    rw [List.drop_eq_nil_of_le (by omega)] at h
    cases h
  have hget : dd[i]? = some x := by
    rw [← List.head?_drop, h]
    rfl
  refine ⟨hlen, ?_, ?_⟩
  · rw [List.getD_eq_getElem?_getD, hget]
    rfl
  · have hdd : dd.drop (i + 1) = (dd.drop i).drop 1 := by
      rw [List.drop_drop]
    rw [hdd, h]
    rfl

lemma segGo_nil (dd : List ℚ) (i : ℕ) (st : Option ℕ) : segGo dd [] i st = [] := by
  cases st <;> rfl

lemma segGo_cons_none (dd : List ℚ) (x : ℚ) (rest : List ℚ) (i : ℕ) :
    segGo dd (x :: rest) i none =
      if x < 0 then segGo dd rest (i + 1) (some i) else segGo dd rest (i + 1) none := rfl

lemma segGo_cons_some (dd : List ℚ) (x : ℚ) (rest : List ℚ) (i s : ℕ) :
    segGo dd (x :: rest) i (some s) =
      if x < 0 then segGo dd rest (i + 1) (some s)
      else (⟨s, i, i - s, minSlice dd s i⟩ : Episode) :: segGo dd rest (i + 1) none := rfl

lemma segGo_mem_iff : ∀ (l dd : List ℚ) (i : ℕ) (st : Option ℕ),
    l = dd.drop i → StateInv dd i st →
    ∀ ep, ep ∈ segGo dd l i st ↔ EmitsSpec dd i st ep := by
  intro l
  induction l with
  | nil =>
    intro dd i st hdrop _ ep
    rw [segGo_nil]
    simp only [List.not_mem_nil, false_iff]
    have hlen : dd.length ≤ i := List.drop_eq_nil_iff.mp hdrop.symm
    rintro (⟨s, e, his, hci, -⟩ | ⟨s, -, e, hie, hci, -⟩)
    · have h1 := hci.1
      have h2 := hci.2.1
      omega
    · have h2 := hci.2.1
      omega
  | cons x rest ih =>
    intro dd i st hdrop hinv ep
    obtain ⟨hlen, hx, hrest⟩ := drop_cons_facts hdrop.symm
    cases st with
    | none =>
      by_cases hneg : x < 0
      · have hInv : StateInv dd (i + 1) (some i) :=
          ⟨Nat.lt_succ_self i,
           fun j hj1 hj2 => by
             have hj : j = i := by omega
             rw [hj, hx]; exact hneg,
           hinv⟩
        have hiff := ih dd (i + 1) (some i) hrest.symm hInv
        rw [segGo_cons_none, if_pos hneg, hiff ep]
        constructor
        · rintro (⟨s, e, his, hci, hep⟩ | ⟨s, hseq, e, hie, hci, hep⟩)
          · exact Or.inl ⟨s, e, by omega, hci, hep⟩
          · obtain rfl := Option.some.inj hseq
            exact Or.inl ⟨i, e, le_refl i, hci, hep⟩
        · rintro (⟨s, e, his, hci, hep⟩ | ⟨s, hseq, -⟩)
          · rcases Nat.eq_or_lt_of_le his with rfl | hlt
            · exact Or.inr ⟨i, rfl, e, by have h1 := hci.1; omega, hci, hep⟩
            · exact Or.inl ⟨s, e, by omega, hci, hep⟩
          · exact absurd hseq (by simp)
      · have hInv : StateInv dd (i + 1) none := Or.inr (by
          have h1 : i + 1 - 1 = i := by omega
          rw [h1, hx]; exact hneg)
        have hiff := ih dd (i + 1) none hrest.symm hInv
        rw [segGo_cons_none, if_neg hneg, hiff ep]
        constructor
        · rintro (⟨s, e, his, hci, hep⟩ | ⟨s, hseq, -⟩)
          · exact Or.inl ⟨s, e, by omega, hci, hep⟩
          · exact absurd hseq (by simp)
        · rintro (⟨s, e, his, hci, hep⟩ | ⟨s, hseq, -⟩)
          · refine Or.inl ⟨s, e, ?_, hci, hep⟩
            rcases Nat.eq_or_lt_of_le his with rfl | hlt
            · have hnegs := hci.2.2.1 i (le_refl i) hci.1
              rw [hx] at hnegs
              exact absurd hnegs hneg
            · omega
          · exact absurd hseq (by simp)
    | some s0 =>
      obtain ⟨hs0i, hallneg, hfirst⟩ := hinv
      by_cases hneg : x < 0
      · have hInv : StateInv dd (i + 1) (some s0) :=
          ⟨by omega,
           fun j hj1 hj2 => by
             rcases Nat.lt_or_ge j i with hj | hj
             · exact hallneg j hj1 hj
             · have hj' : j = i := by omega
               rw [hj', hx]; exact hneg,
           hfirst⟩
        have hiff := ih dd (i + 1) (some s0) hrest.symm hInv
        rw [segGo_cons_some, if_pos hneg, hiff ep]
        constructor
        · rintro (⟨s, e, his, hci, hep⟩ | ⟨s, hseq, e, hie, hci, hep⟩)
          · exact Or.inl ⟨s, e, by omega, hci, hep⟩
          · obtain rfl := Option.some.inj hseq
            exact Or.inr ⟨s0, rfl, e, by omega, hci, hep⟩
        · rintro (⟨s, e, his, hci, hep⟩ | ⟨s, hseq, e, hie, hci, hep⟩)
          · refine Or.inl ⟨s, e, ?_, hci, hep⟩
            rcases Nat.eq_or_lt_of_le his with rfl | hlt
            · rcases hci.2.2.2.2 with h0 | hprev
              · omega
              · have hnegprev := hallneg (i - 1) (by omega) (by omega)
                exact absurd hnegprev hprev
            · omega
          · obtain rfl := Option.some.inj hseq
            refine Or.inr ⟨s0, rfl, e, ?_, hci, hep⟩
            rcases Nat.eq_or_lt_of_le hie with rfl | hlt
            · have hnn := hci.2.2.2.1
              rw [hx] at hnn
              exact absurd hneg hnn
            · omega
      · have hInv : StateInv dd (i + 1) none := Or.inr (by
          have h1 : i + 1 - 1 = i := by omega
          rw [h1, hx]; exact hneg)
        have hci0 : ClosedInterval dd s0 i :=
          ⟨hs0i, hlen, hallneg, by rw [hx]; exact hneg, hfirst⟩
        have hiff := ih dd (i + 1) none hrest.symm hInv
        rw [segGo_cons_some, if_neg hneg, List.mem_cons, hiff ep]
        constructor
        · rintro (rfl | (⟨s, e, his, hci, hep⟩ | ⟨s, hseq, -⟩))
          · exact Or.inr ⟨s0, rfl, i, le_refl i, hci0, rfl⟩
          · exact Or.inl ⟨s, e, by omega, hci, hep⟩
          · exact absurd hseq (by simp)
        · rintro (⟨s, e, his, hci, hep⟩ | ⟨s, hseq, e, hie, hci, hep⟩)
          · refine Or.inr (Or.inl ⟨s, e, ?_, hci, hep⟩)
            rcases Nat.eq_or_lt_of_le his with rfl | hlt
            · have hnegs := hci.2.2.1 i (le_refl i) hci.1
              rw [hx] at hnegs
              exact absurd hnegs hneg
            · omega
          · obtain rfl := Option.some.inj hseq
            rcases Nat.eq_or_lt_of_le hie with rfl | hlt
            · exact Or.inl (by rw [hep]; rfl)
            · have hnegs := hci.2.2.1 i (by omega) hlt
              rw [hx] at hnegs
              exact absurd hnegs hneg

lemma segGo_pairwise : ∀ (l dd : List ℚ) (i : ℕ) (st : Option ℕ),
    l = dd.drop i → StateInv dd i st →
    (segGo dd l i st).Pairwise (fun a b => a.start < b.start) := by
  intro l
  induction l with
  | nil =>
    intro dd i st _ _
    rw [segGo_nil]
    exact List.Pairwise.nil
  | cons x rest ih =>
    intro dd i st hdrop hinv
    obtain ⟨hlen, hx, hrest⟩ := drop_cons_facts hdrop.symm
    cases st with
    | none =>
      by_cases hneg : x < 0
      · rw [segGo_cons_none, if_pos hneg]
        refine ih dd (i + 1) (some i) hrest.symm
          ⟨Nat.lt_succ_self i, fun j hj1 hj2 => ?_, hinv⟩
        have hj : j = i := by omega
        rw [hj, hx]; exact hneg
      · rw [segGo_cons_none, if_neg hneg]
        refine ih dd (i + 1) none hrest.symm (Or.inr ?_)
        have h1 : i + 1 - 1 = i := by omega
        rw [h1, hx]; exact hneg
    | some s0 =>
      obtain ⟨hs0i, hallneg, hfirst⟩ := hinv
      by_cases hneg : x < 0
      · rw [segGo_cons_some, if_pos hneg]
        refine ih dd (i + 1) (some s0) hrest.symm
          ⟨by omega, fun j hj1 hj2 => ?_, hfirst⟩
        rcases Nat.lt_or_ge j i with hj | hj
        · exact hallneg j hj1 hj
        · have hj' : j = i := by omega
          rw [hj', hx]; exact hneg
      · rw [segGo_cons_some, if_neg hneg]
        have hInv : StateInv dd (i + 1) none := Or.inr (by
          have h1 : i + 1 - 1 = i := by omega
          rw [h1, hx]; exact hneg)
        rw [List.pairwise_cons]
        constructor
        · intro b hb
          rw [segGo_mem_iff rest dd (i + 1) none hrest.symm hInv b] at hb
          rcases hb with ⟨s, e, his, hci, hep⟩ | ⟨s, hseq, -⟩
          · rw [hep]
            show s0 < s
            omega
          · exact absurd hseq (by simp)
        · exact ih dd (i + 1) none hrest.symm hInv

/-- C5. Drawdown segmentation (`calculate_drawdown_periods`,
advanced_charts.py:155-177) emits exactly one episode per maximal strictly
negative interval of the drawdown curve that returns to nonnegative before
the series ends: membership in the emitted list coincides with the closed
maximal intervals, the emitted starts are strictly increasing (so each
interval is emitted exactly once), every episode has `duration = end -
start` and `depth` equal to the minimum drawdown value on the interval,
and an interval still open at the final timestamp is never emitted (a
closed interval requires a nonnegative curve value inside the series). -/
theorem drawdown_periods_spec (returns : List ℚ) :
    (∀ ep, ep ∈ calculate_drawdown_periods returns ↔
      ∃ s e, ClosedInterval (drawdownCurve returns) s e ∧
        ep = mkEpisode (drawdownCurve returns) s e) ∧
    (calculate_drawdown_periods returns).Pairwise (fun a b => a.start < b.start) ∧
    (∀ ep, ep ∈ calculate_drawdown_periods returns →
      ep.depth ∈ ((drawdownCurve returns).drop ep.start).take (ep.stop - ep.start) ∧
      ∀ y ∈ ((drawdownCurve returns).drop ep.start).take (ep.stop - ep.start),
        ep.depth ≤ y) := by
  have hmem : ∀ ep, ep ∈ calculate_drawdown_periods returns ↔
      ∃ s e, ClosedInterval (drawdownCurve returns) s e ∧
        ep = mkEpisode (drawdownCurve returns) s e := by
    intro ep
    unfold calculate_drawdown_periods segmentDrawdowns
    rw [segGo_mem_iff (drawdownCurve returns) (drawdownCurve returns) 0 none
      (List.drop_zero _).symm (Or.inl rfl) ep]
    constructor
    · rintro (⟨s, e, -, hci, hep⟩ | ⟨s, hseq, -⟩)
      · exact ⟨s, e, hci, hep⟩
      · exact absurd hseq (by simp)
    · rintro ⟨s, e, hci, hep⟩
      exact Or.inl ⟨s, e, Nat.zero_le s, hci, hep⟩
  refine ⟨hmem, ?_, ?_⟩
  · unfold calculate_drawdown_periods segmentDrawdowns
    exact segGo_pairwise (drawdownCurve returns) (drawdownCurve returns) 0 none
      (List.drop_zero _).symm (Or.inl rfl)
  · intro ep hep
    obtain ⟨s, e, hci, rfl⟩ := (hmem ep).mp hep
    have hslice_len : 0 < (((drawdownCurve returns).drop s).take (e - s)).length := by
      rw [List.length_take, List.length_drop]
      have h1 := hci.1
      have h2 := hci.2.1
      omega
    have hne : ((drawdownCurve returns).drop s).take (e - s) ≠ [] := by
      intro hcon
      rw [hcon] at hslice_len
      simp at hslice_len
    constructor
    · exact listMin_mem _ hne
    · intro y hy
      exact listMin_le _ hy
